import Mathlib

/-!
Verification of the feedback-organiser batch classification pipeline
(label normalizer, batch classifier, aggregator, export builder),
modelled from `src/index.tsx`.

JavaScript strings are modelled as lists of characters (`JStr`).
`String.prototype.toLowerCase` is modelled on the ASCII range, one
character at a time; `String.prototype.trim` is modelled with
`Char.isWhitespace`.  Fallible external classification calls are
modelled as functions into `Except`.
-/

namespace FeedbackOrganiser

/-- A JavaScript string, modelled as its list of characters. -/
abbrev JStr := List Char

/-! ## Label Normalizer (src/index.tsx lines 183-185) -/

/-- ASCII case mapping of JavaScript `toLowerCase`, one character at a time. -/
def lowerChar (c : Char) : Char :=
  match c with
  | 'A' => 'a' | 'B' => 'b' | 'C' => 'c' | 'D' => 'd' | 'E' => 'e' | 'F' => 'f'
  | 'G' => 'g' | 'H' => 'h' | 'I' => 'i' | 'J' => 'j' | 'K' => 'k' | 'L' => 'l'
  | 'M' => 'm' | 'N' => 'n' | 'O' => 'o' | 'P' => 'p' | 'Q' => 'q' | 'R' => 'r'
  | 'S' => 's' | 'T' => 't' | 'U' => 'u' | 'V' => 'v' | 'W' => 'w' | 'X' => 'x'
  | 'Y' => 'y' | 'Z' => 'z'
  | c => c

/-- JavaScript `toLowerCase` on a whole string. -/
def jsToLowerCase (l : JStr) : JStr := l.map lowerChar

/-- JavaScript `trim`: drop leading and trailing whitespace. -/
def jsTrim (l : JStr) : JStr :=
  ((l.dropWhile Char.isWhitespace).reverse.dropWhile Char.isWhitespace).reverse

/-- JavaScript `replace(/^#+/, '')`: drop the leading run of hash characters. -/
def stripLeadingHashes (l : JStr) : JStr := l.dropWhile (fun c => c == '#')

/-- `normalizeLabel` from src/index.tsx lines 183-185:
`label.trim().toLowerCase().replace(/^#+/, '')`. -/
def normalizeLabel (l : JStr) : JStr := stripLeadingHashes (jsToLowerCase (jsTrim l))

/-! ### Normalizer lemmas -/

theorem lowerChar_image (c : Char) :
    lowerChar c = c ∨ lowerChar c ∈ ['a', 'b', 'c', 'd', 'e', 'f', 'g', 'h', 'i', 'j', 'k', 'l',
      'm', 'n', 'o', 'p', 'q', 'r', 's', 't', 'u', 'v', 'w', 'x', 'y', 'z'] := by
  unfold lowerChar
  split <;> simp

theorem lowerChar_fix : ∀ c ∈ ['a', 'b', 'c', 'd', 'e', 'f', 'g', 'h', 'i', 'j', 'k', 'l',
    'm', 'n', 'o', 'p', 'q', 'r', 's', 't', 'u', 'v', 'w', 'x', 'y', 'z'], lowerChar c = c := by
  decide

theorem lowerChar_idem (c : Char) : lowerChar (lowerChar c) = lowerChar c := by
  rcases lowerChar_image c with h | h
  · rw [h]; exact h
  · exact lowerChar_fix _ h

theorem lowerChar_eq_hash (c : Char) : (lowerChar c = '#') = (c = '#') := by
  unfold lowerChar
  split <;> simp_all

theorem jsToLowerCase_idem (l : JStr) : jsToLowerCase (jsToLowerCase l) = jsToLowerCase l := by
  simp only [jsToLowerCase, List.map_map]
  exact List.map_congr_left fun c _ => lowerChar_idem c

theorem jsToLowerCase_stripLeadingHashes (l : JStr) :
    jsToLowerCase (stripLeadingHashes l) = stripLeadingHashes (jsToLowerCase l) := by
  simp only [jsToLowerCase, stripLeadingHashes, List.dropWhile_map]
  have h : ((fun c => c == '#') ∘ lowerChar) = (fun c : Char => c == '#') := by
    funext c
    simp only [Function.comp_apply]
    rw [Bool.eq_iff_iff]
    simp only [beq_iff_eq]
    rw [lowerChar_eq_hash]
  rw [h]

theorem dropWhile_idem (p : α → Bool) (l : List α) :
    (l.dropWhile p).dropWhile p = l.dropWhile p := by
  induction l with
  | nil => rfl
  | cons x xs ih =>
    by_cases h : p x
    · rwa [List.dropWhile_cons_of_pos h]
    · rw [List.dropWhile_cons_of_neg h, List.dropWhile_cons_of_neg h]

theorem stripLeadingHashes_idem (l : JStr) :
    stripLeadingHashes (stripLeadingHashes l) = stripLeadingHashes l :=
  dropWhile_idem _ l

/-- Lowercasing leaves the output of `normalizeLabel` unchanged. -/
theorem jsToLowerCase_normalizeLabel (l : JStr) :
    jsToLowerCase (normalizeLabel l) = normalizeLabel l := by
  unfold normalizeLabel
  rw [jsToLowerCase_stripLeadingHashes, jsToLowerCase_idem]

/-! ## Data model (src/index.tsx line 30) -/

/-- One parsed entry of the classification response: `{feedback, labels}`. -/
structure RawItem where
  feedback : JStr
  labels : List JStr
deriving DecidableEq, Repr

/-- One element of `analysisResults`:
`{ feedback: string; labels: string[]; isIncorrect?: boolean }`. -/
structure FeedbackRecord where
  feedback : JStr
  labels : List JStr
  isIncorrect : Bool
deriving DecidableEq, Repr

/-! ## Batch Classifier (src/index.tsx lines 86-181) -/

/-- `BATCH_SIZE` from src/index.tsx line 104. -/
def BATCH_SIZE : Nat := 250

/-- The batch slices of the analyze loop, src/index.tsx lines 105 and 137-140:
`totalBatches = Math.ceil(lines.length / B)` iterations, iteration `i` taking
`lines.slice(i * B, i * B + B)`. -/
def batchSlices (B : Nat) (lines : List JStr) : List (List JStr) :=
  (List.range ((lines.length + B - 1) / B)).map (fun i => (lines.drop (i * B)).take B)

/-- `batchLines.join('\n')`, src/index.tsx line 141. -/
def joinNL (b : List JStr) : JStr := List.intercalate ['\n'] b

/-- The texts handed to the external classification call, one per batch. -/
def batchTexts (B : Nat) (lines : List JStr) : List JStr :=
  (batchSlices B lines).map joinNL

/-- `(item) => ({ ...item, isIncorrect: false })`, src/index.tsx line 157. -/
def mkRecord (it : RawItem) : FeedbackRecord :=
  ⟨it.feedback, it.labels, false⟩

/-- Lines 156-158: push the mapped batch onto the accumulator when the parsed
batch is non-empty (pushing an empty batch would be a no-op anyway). -/
def appendBatch (acc : List FeedbackRecord) (items : List RawItem) : List FeedbackRecord :=
  if 0 < items.length then acc ++ items.map mkRecord else acc

/-- Result of running the batch loop of lines 137-159: the accumulator, the
trace of classification calls actually issued (in issue order), and whether
every issued call succeeded (`false` means the loop was aborted by a throw). -/
structure LoopResult where
  acc : List FeedbackRecord
  calls : List JStr
  ok : Bool
deriving DecidableEq, Repr

/-- The batch loop of src/index.tsx lines 137-159.  `fn` models the external
call plus JSON parsing (`ai.models.generateContent` + `JSON.parse`): `.error`
means the call threw or returned unparsable data, which aborts the loop. -/
def runBatchLoop (fn : JStr → Except Unit (List RawItem)) :
    List (List JStr) → List FeedbackRecord → LoopResult
  | [], acc => ⟨acc, [], true⟩
  | b :: bs, acc =>
    match fn (joinNL b) with
    | .error _ => ⟨acc, [joinNL b], false⟩
    | .ok items =>
      let r := runBatchLoop fn bs (appendBatch acc items)
      ⟨r.acc, joinNL b :: r.calls, r.ok⟩

/-- Outcome reported to the user at the end of the analyze handler. -/
inductive Outcome where
  | complete
  | noResults
  | error
deriving DecidableEq, Repr

/-- Final state of one run of the analyze click handler. -/
structure RunResult where
  analysisResults : List FeedbackRecord
  outcome : Outcome
  calls : List JStr
  exportEnabled : Bool
deriving DecidableEq, Repr

/-- The analyze click handler, src/index.tsx lines 86-181, for pre-filtered
input lines: `analysisResults` is reset to `[]` (line 101) and export buttons
are disabled (lines 93-94); on success with a non-empty accumulator the
results are kept and exports enabled (lines 161-167); an empty accumulator
yields the distinct no-results message (line 169); a throw is caught at line
172 and reported as an error, leaving the accumulator as it was.
`analyzeFinish` is the tail of the handler (lines 161-176), `analyzeRun`
the whole run on pre-filtered input lines. -/
def analyzeFinish (r : LoopResult) : RunResult :=
  if r.ok then
    if 0 < r.acc.length then ⟨r.acc, Outcome.complete, r.calls, true⟩
    else ⟨r.acc, Outcome.noResults, r.calls, false⟩
  else ⟨r.acc, Outcome.error, r.calls, false⟩

def analyzeRun (fn : JStr → Except Unit (List RawItem)) (feedbackLines : List JStr)
    (B : Nat) : RunResult :=
  analyzeFinish (runBatchLoop fn (batchSlices B feedbackLines) [])

/-- The parsed batches of the maximal prefix of batch texts on which `fn`
succeeds (the loop stops at the first failure). -/
def successPrefixItems (fn : JStr → Except Unit (List RawItem)) : List JStr → List (List RawItem)
  | [] => []
  | t :: ts =>
    match fn t with
    | .error _ => []
    | .ok items => items :: successPrefixItems fn ts

/-! ### Chunking lemmas -/

/-- Recursive reformulation of the slice loop: peel off `take B` and recurse
on `drop B`. -/
def chunkRec (B : Nat) : List JStr → List (List JStr)
  | [] => []
  | x :: xs => ((x :: xs).take B) :: chunkRec B (xs.drop (B - 1))
termination_by l => l.length
decreasing_by simp only [List.length_drop, List.length_cons]; omega

theorem batchSlices_nil (B : Nat) (hB : 0 < B) : batchSlices B [] = [] := by
  unfold batchSlices
  have h0 : ((List.length ([] : List JStr)) + B - 1) / B = 0 := by
    simp only [List.length_nil]
    exact Nat.div_eq_of_lt (by omega)
  rw [h0]
  rfl

theorem batchSlices_cons (B : Nat) (hB : 0 < B) (l : List JStr) (hl : l ≠ []) :
    batchSlices B l = l.take B :: batchSlices B (l.drop B) := by
  have hpos : 0 < l.length := List.length_pos.mpr hl
  unfold batchSlices
  have e1 : (l.length + B - 1) / B = (l.length - 1) / B + 1 := by
    have h : l.length + B - 1 = (l.length - 1) + B := by omega
    rw [h, Nat.add_div_right _ hB]
  have e2 : ((l.drop B).length + B - 1) / B = (l.length - 1) / B := by
    rw [List.length_drop]
    rcases Nat.le_total B l.length with h | h
    · have h3 : l.length - B + B - 1 = l.length - 1 := by omega
      rw [h3]
    · have h3 : l.length - B = 0 := by omega
      rw [h3]
      have e4 : 0 + B - 1 = B - 1 := by omega
      rw [e4, Nat.div_eq_of_lt (by omega), Nat.div_eq_of_lt (by omega)]
  rw [e1, e2, List.range_succ_eq_map, List.map_cons, List.map_map]
  congr 1
  · simp
  · apply List.map_congr_left
    intro i _
    simp only [Function.comp_apply, List.drop_drop]
    congr 2
    rw [Nat.succ_mul, Nat.add_comm]

theorem batchSlices_eq_chunkRec_aux (B : Nat) (hB : 0 < B) :
    ∀ (n : Nat) (l : List JStr), l.length ≤ n → batchSlices B l = chunkRec B l := by
  intro n
  induction n with
  | zero =>
    intro l hl
    have hnil : l = [] := by
      cases l with
      | nil => rfl
      | cons x xs => simp at hl
    subst hnil
    rw [batchSlices_nil B hB]
    simp [chunkRec]
  | succ n ih =>
    intro l hl
    cases l with
    | nil =>
      rw [batchSlices_nil B hB]
      simp [chunkRec]
    | cons x xs =>
      rw [batchSlices_cons B hB _ (by simp)]
      have hdrop : (x :: xs).drop B = xs.drop (B - 1) := by
        cases B with
        | zero => omega
        | succ m => simp [List.drop]
      simp only [chunkRec]
      congr 1
      rw [hdrop]
      apply ih
      simp only [List.length_drop]
      simp only [List.length_cons] at hl
      omega

theorem batchSlices_eq_chunkRec (B : Nat) (hB : 0 < B) (l : List JStr) :
    batchSlices B l = chunkRec B l :=
  batchSlices_eq_chunkRec_aux B hB l.length l le_rfl

theorem length_batchSlices (B : Nat) (lines : List JStr) :
    (batchSlices B lines).length = (lines.length + B - 1) / B := by
  simp [batchSlices]

theorem length_le_of_mem_batchSlices {B : Nat} {lines : List JStr} {c : List JStr}
    (hc : c ∈ batchSlices B lines) : c.length ≤ B := by
  simp only [batchSlices, List.mem_map, List.mem_range] at hc
  obtain ⟨i, _, rfl⟩ := hc
  simp only [List.length_take]
  omega

theorem flatten_chunkRec_aux (B : Nat) (hB : 0 < B) :
    ∀ (n : Nat) (l : List JStr), l.length ≤ n → (chunkRec B l).flatten = l := by
  intro n
  induction n with
  | zero =>
    intro l hl
    have hnil : l = [] := by
      cases l with
      | nil => rfl
      | cons x xs => simp at hl
    subst hnil
    simp [chunkRec]
  | succ n ih =>
    intro l hl
    cases l with
    | nil => simp [chunkRec]
    | cons x xs =>
      have hdrop : (x :: xs).drop B = xs.drop (B - 1) := by
        cases B with
        | zero => omega
        | succ m => simp [List.drop]
      simp only [chunkRec, List.flatten_cons]
      rw [ih (xs.drop (B - 1)) ?hle, ← hdrop, List.take_append_drop]
      case hle =>
        simp only [List.length_drop]
        simp only [List.length_cons] at hl
        omega

/-- Splitting into batches loses no line and keeps order: the concatenation
of the batch slices is the input. -/
theorem flatten_batchSlices (B : Nat) (hB : 0 < B) (l : List JStr) :
    (batchSlices B l).flatten = l := by
  rw [batchSlices_eq_chunkRec B hB l]
  exact flatten_chunkRec_aux B hB l.length l le_rfl

/-! ### Batch loop lemmas -/

theorem appendBatch_eq (acc : List FeedbackRecord) (items : List RawItem) :
    appendBatch acc items = acc ++ items.map mkRecord := by
  unfold appendBatch
  split
  · rfl
  · next h =>
    have hnil : items = [] := by
      cases items with
      | nil => rfl
      | cons x xs => simp at h
    subst hnil
    simp

/-- The items of a successful call (used to state what the loop accumulates). -/
def okItems (fn : JStr → Except Unit (List RawItem)) (t : JStr) : List RawItem :=
  match fn t with
  | .ok items => items
  | .error _ => []

theorem runBatchLoop_ok_of_all (fn : JStr → Except Unit (List RawItem)) :
    ∀ (bs : List (List JStr)) (acc : List FeedbackRecord),
      (∀ b ∈ bs, (fn (joinNL b)).isOk = true) →
      runBatchLoop fn bs acc =
        ⟨acc ++ (bs.map (fun b => (okItems fn (joinNL b)).map mkRecord)).flatten,
         bs.map joinNL, true⟩ := by
  intro bs
  induction bs with
  | nil =>
    intro acc _
    simp [runBatchLoop]
  | cons b bs ih =>
    intro acc h
    have hb := h b (by simp)
    cases hfb : fn (joinNL b) with
    | error e => rw [hfb] at hb; simp [Except.isOk, Except.toBool] at hb
    | ok items =>
      simp only [runBatchLoop, hfb]
      rw [ih (appendBatch acc items) (fun c hc => h c (by simp [hc]))]
      simp only [List.map_cons, List.flatten_cons, okItems, hfb, appendBatch_eq,
        List.append_assoc]

theorem runBatchLoop_fail (fn : JStr → Except Unit (List RawItem)) :
    ∀ (bs : List (List JStr)) (acc : List FeedbackRecord),
      (∃ b ∈ bs, (fn (joinNL b)).isOk = false) →
      (runBatchLoop fn bs acc).ok = false ∧
      (runBatchLoop fn bs acc).acc =
        acc ++ ((successPrefixItems fn (bs.map joinNL)).map (List.map mkRecord)).flatten := by
  intro bs
  induction bs with
  | nil =>
    intro acc h
    simp at h
  | cons b bs ih =>
    intro acc h
    cases hfb : fn (joinNL b) with
    | error e =>
      simp only [runBatchLoop, hfb, List.map_cons, successPrefixItems]
      simp
    | ok items =>
      have hbs : ∃ c ∈ bs, (fn (joinNL c)).isOk = false := by
        obtain ⟨c, hc, hcf⟩ := h
        rcases List.mem_cons.mp hc with rfl | hmem
        · rw [hfb] at hcf; simp [Except.isOk, Except.toBool] at hcf
        · exact ⟨c, hmem, hcf⟩
      obtain ⟨hok, hacc⟩ := ih (appendBatch acc items) hbs
      simp only [runBatchLoop, hfb]
      refine ⟨hok, ?_⟩
      simp only [List.map_cons, successPrefixItems, hfb, List.flatten_cons]
      rw [hacc, appendBatch_eq, List.append_assoc]

/-! ### Finish-step lemmas -/

theorem analyzeFinish_results (r : LoopResult) :
    (analyzeFinish r).analysisResults = r.acc := by
  unfold analyzeFinish
  split
  · split <;> rfl
  · rfl

theorem analyzeFinish_calls (r : LoopResult) : (analyzeFinish r).calls = r.calls := by
  unfold analyzeFinish
  split
  · split <;> rfl
  · rfl

theorem analyzeFinish_of_fail (r : LoopResult) (h : r.ok = false) :
    analyzeFinish r = ⟨r.acc, Outcome.error, r.calls, false⟩ := by
  unfold analyzeFinish
  rw [if_neg]
  simp [h]

theorem analyzeFinish_of_empty (r : LoopResult) (hok : r.ok = true) (hacc : r.acc = []) :
    analyzeFinish r = ⟨r.acc, Outcome.noResults, r.calls, false⟩ := by
  unfold analyzeFinish
  rw [if_pos hok, if_neg]
  simp [hacc]

/-! ### Concrete classifier stubs used in witnesses -/

/-- A stub classifier that always succeeds with an empty parsed array. -/
def stubOkEmpty : JStr → Except Unit (List RawItem) := fun _ => Except.ok []

/-- A stub classifier that succeeds on the batch text `"a"` and throws on
everything else. -/
def stubFirstOkThenFail : JStr → Except Unit (List RawItem) :=
  fun t => if t = ['a'] then Except.ok [⟨['a'], [['x']]⟩] else Except.error ()

/-! ## Claim C1 -/

/-- C1: the claim is false on the code.  With two one-line batches where the
first call succeeds (returning one record) and the second throws, the run
reports an error, yet the record accumulated from the first, successful batch
is still present in the session state `analysisResults` afterwards: the catch
block (src/index.tsx lines 172-176) never clears the accumulator. -/
theorem claim_C1_counterexample :
    (analyzeRun stubFirstOkThenFail [['a'], ['b']] 1).outcome = Outcome.error ∧
    (analyzeRun stubFirstOkThenFail [['a'], ['b']] 1).analysisResults ≠ [] := by
  decide

/-- C1 (amended): if the external call fails for some batch, the whole run
fails with the error outcome and nothing is rendered or exportable (exports
stay disabled); however the records accumulated from the batches that
succeeded before the failing one remain in the session accumulator
`analysisResults` (it is only reset at the start of the next run). -/
theorem claim_C1_error_keeps_records (fn : JStr → Except Unit (List RawItem))
    (lines : List JStr) (B : Nat)
    (hfail : ∃ b ∈ batchSlices B lines, (fn (joinNL b)).isOk = false) :
    (analyzeRun fn lines B).outcome = Outcome.error ∧
    (analyzeRun fn lines B).exportEnabled = false ∧
    (analyzeRun fn lines B).analysisResults =
      ((successPrefixItems fn (batchTexts B lines)).map (List.map mkRecord)).flatten := by
  obtain ⟨hok, hacc⟩ := runBatchLoop_fail fn (batchSlices B lines) [] hfail
  unfold analyzeRun
  rw [analyzeFinish_of_fail _ hok]
  refine ⟨rfl, rfl, ?_⟩
  rw [hacc]
  simp [batchTexts]

/-- C1 witness: the amended statement applied to the concrete two-batch run
whose second call fails. -/
theorem claim_C1_witness :
    (∃ b ∈ batchSlices 1 [['a'], ['b']], (stubFirstOkThenFail (joinNL b)).isOk = false) ∧
    ((analyzeRun stubFirstOkThenFail [['a'], ['b']] 1).outcome = Outcome.error ∧
     (analyzeRun stubFirstOkThenFail [['a'], ['b']] 1).exportEnabled = false ∧
     (analyzeRun stubFirstOkThenFail [['a'], ['b']] 1).analysisResults =
       ((successPrefixItems stubFirstOkThenFail (batchTexts 1 [['a'], ['b']])).map
         (List.map mkRecord)).flatten) :=
  ⟨by decide, claim_C1_error_keeps_records stubFirstOkThenFail [['a'], ['b']] 1 (by decide)⟩

/-! ## Claim C2 -/

/-- C2: with batch size `B > 0` the loop splits the `N` pre-filtered lines
into `⌈N / B⌉` consecutive chunks (their concatenation is the input, so order
is preserved and only the last chunk may be short), each chunk of at most `B`
lines; one classification call is issued per chunk, in chunk order (the trace
of issued calls is exactly the newline-joins of the chunks, in order — the
loop is sequential, starting call `n + 1` only after call `n` resolved); the
default batch size is 250. -/
theorem claim_C2_batching (fn : JStr → Except Unit (List RawItem))
    (lines : List JStr) (B : Nat) (hB : 0 < B)
    (hok : ∀ b ∈ batchSlices B lines, (fn (joinNL b)).isOk = true) :
    (analyzeRun fn lines B).calls = batchTexts B lines ∧
    (batchTexts B lines).length = (lines.length + B - 1) / B ∧
    (batchSlices B lines).flatten = lines ∧
    (∀ c, c ∈ batchSlices B lines → c.length ≤ B) ∧
    BATCH_SIZE = 250 := by
  refine ⟨?_, ?_, flatten_batchSlices B hB lines,
    fun c hc => length_le_of_mem_batchSlices hc, rfl⟩
  · unfold analyzeRun
    rw [analyzeFinish_calls, runBatchLoop_ok_of_all fn (batchSlices B lines) [] hok]
    rfl
  · simp [batchTexts, length_batchSlices]

/-- C2 witness: three lines with batch size 2 give the two expected batch
texts, in order. -/
theorem claim_C2_witness :
    (0 < 2 ∧ (∀ b ∈ batchSlices 2 [['a'], ['b'], ['c']],
        (stubOkEmpty (joinNL b)).isOk = true)) ∧
    ((analyzeRun stubOkEmpty [['a'], ['b'], ['c']] 2).calls =
        batchTexts 2 [['a'], ['b'], ['c']] ∧
      (batchTexts 2 [['a'], ['b'], ['c']]).length = (3 + 2 - 1) / 2 ∧
      (batchSlices 2 [['a'], ['b'], ['c']]).flatten = [['a'], ['b'], ['c']] ∧
      (∀ c, c ∈ batchSlices 2 [['a'], ['b'], ['c']] → c.length ≤ 2) ∧
      BATCH_SIZE = 250) :=
  ⟨⟨by decide, by decide⟩,
    claim_C2_batching stubOkEmpty [['a'], ['b'], ['c']] 2 (by decide) (by decide)⟩

/-! ## Claim C7 -/

/-- C7: each successful batch appends exactly the returned item sequence to
the accumulator, as-is — same length, same order, texts and label lists kept
verbatim, no filtering — and every appended record is created with
`isIncorrect = false`. -/
theorem claim_C7_append_as_is (acc : List FeedbackRecord) (items : List RawItem) :
    appendBatch acc items = acc ++ items.map mkRecord ∧
    (items.map mkRecord).map FeedbackRecord.isIncorrect = List.replicate items.length false ∧
    (items.map mkRecord).map FeedbackRecord.feedback = items.map RawItem.feedback ∧
    (items.map mkRecord).map FeedbackRecord.labels = items.map RawItem.labels := by
  refine ⟨appendBatch_eq acc items, ?_, ?_, ?_⟩ <;>
    · induction items with
      | nil => rfl
      | cons x xs ih => simp_all [mkRecord, List.replicate_succ]

/-! ## Claim C8 -/

/-- C8: when every issued call succeeds but the final accumulator is empty,
the run reports the distinct no-results outcome — not the error outcome, so a
caller can tell "nothing to show" from "call failed" (and exports stay
disabled). -/
theorem claim_C8_empty_is_noResults (fn : JStr → Except Unit (List RawItem))
    (lines : List JStr) (B : Nat)
    (hok : ∀ b ∈ batchSlices B lines, (fn (joinNL b)).isOk = true)
    (hempty : (analyzeRun fn lines B).analysisResults = []) :
    (analyzeRun fn lines B).outcome = Outcome.noResults ∧
    Outcome.noResults ≠ Outcome.error ∧
    (analyzeRun fn lines B).exportEnabled = false := by
  have hr := runBatchLoop_ok_of_all fn (batchSlices B lines) [] hok
  have hloopok : (runBatchLoop fn (batchSlices B lines) []).ok = true := by rw [hr]
  have hacc : (runBatchLoop fn (batchSlices B lines) []).acc = [] := by
    have := hempty
    unfold analyzeRun at this
    rwa [analyzeFinish_results] at this
  unfold analyzeRun
  rw [analyzeFinish_of_empty _ hloopok hacc]
  exact ⟨rfl, by simp, rfl⟩

/-- C8 witness: a run whose single call succeeds with an empty array ends in
the no-results outcome. -/
theorem claim_C8_witness :
    ((∀ b ∈ batchSlices 1 [['a']], (stubOkEmpty (joinNL b)).isOk = true) ∧
      (analyzeRun stubOkEmpty [['a']] 1).analysisResults = []) ∧
    ((analyzeRun stubOkEmpty [['a']] 1).outcome = Outcome.noResults ∧
      Outcome.noResults ≠ Outcome.error ∧
      (analyzeRun stubOkEmpty [['a']] 1).exportEnabled = false) :=
  ⟨⟨by decide, by decide⟩,
    claim_C8_empty_is_noResults stubOkEmpty [['a']] 1 (by decide) (by decide)⟩

/-! ## Claim C3 -/

/-- C3: the claim that `normalize` is idempotent for **every** string is false
on the code: `normalizeLabel` trims before stripping the leading hashes, so
stripping can expose leading whitespace.  Concretely `"# bug"` normalizes to
`" bug"`, which normalizes again to `"bug"`. -/
theorem claim_C3_counterexample :
    normalizeLabel (normalizeLabel ['#', ' ', 'b', 'u', 'g']) ≠
      normalizeLabel ['#', ' ', 'b', 'u', 'g'] := by
  decide

/-- C3 (amended): `normalizeLabel` (trim, lower-case, strip leading hash run,
in that order) is idempotent on every string whose normalized form carries no
leading or trailing whitespace, i.e. whenever trimming fixes
`normalizeLabel x`; it is not idempotent in general. -/
theorem claim_C3_idempotent_of_trimmed (x : JStr)
    (h : jsTrim (normalizeLabel x) = normalizeLabel x) :
    normalizeLabel (normalizeLabel x) = normalizeLabel x := by
  have e1 : normalizeLabel (normalizeLabel x) =
      stripLeadingHashes (jsToLowerCase (jsTrim (normalizeLabel x))) := rfl
  rw [e1, h, jsToLowerCase_normalizeLabel]
  exact stripLeadingHashes_idem (jsToLowerCase (jsTrim x))

/-- C3 witness: the amended idempotence applied at the spec's own example
`"#Bug"`. -/
theorem claim_C3_idempotent_witness :
    jsTrim (normalizeLabel ['#', 'B', 'u', 'g']) = normalizeLabel ['#', 'B', 'u', 'g'] ∧
    normalizeLabel (normalizeLabel ['#', 'B', 'u', 'g']) = normalizeLabel ['#', 'B', 'u', 'g'] :=
  ⟨by decide, claim_C3_idempotent_of_trimmed ['#', 'B', 'u', 'g'] (by decide)⟩

/-! ## Aggregator (src/index.tsx lines 187-205 and 353-365) -/

/-- One `labelCounts.set(key, (labelCounts.get(key) || 0) + 1)` step on a JS
`Map`, modelled as an insertion-ordered association list: an existing key
keeps its position, a new key is appended at the end. -/
def bump (m : List (JStr × Nat)) (k : JStr) : List (JStr × Nat) :=
  if m.any (fun p => p.1 = k) then
    m.map (fun p => if p.1 = k then (p.1, p.2 + 1) else p)
  else m ++ [(k, 1)]

/-- Lines 190-195 / 356-361: normalize one label and count it unless it
normalizes to the empty string (JS truthiness check `if (normalizedLabel)`). -/
def bumpLabel (m : List (JStr × Nat)) (label : JStr) : List (JStr × Nat) :=
  if normalizeLabel label ≠ [] then bump m (normalizeLabel label) else m

/-- The label-count map built by `updateAndRenderStats` (lines 188-196) and,
identically, by `generateAndDownloadExplodedExcel` (lines 354-362). -/
def labelCountsOf (records : List FeedbackRecord) : List (JStr × Nat) :=
  records.foldl (fun m item => item.labels.foldl bumpLabel m) []

/-- The stream of non-empty normalized labels, scanning records in order and
each record's labels in order. -/
def normLabelStream (records : List FeedbackRecord) : List JStr :=
  ((records.flatMap (fun r => r.labels)).map normalizeLabel).filter (fun l => l ≠ [])

/-- Stable insertion into a count-descending list: the entry goes in front of
the first earlier-sorted entry whose count is ≤ its own. -/
def insertDesc (x : JStr × Nat) : List (JStr × Nat) → List (JStr × Nat)
  | [] => [x]
  | y :: ys => if y.2 ≤ x.2 then x :: y :: ys else y :: insertDesc x ys

/-- `[...entries].sort((a, b) => b[1] - a[1])` (line 205), and likewise
`.sort((a, b) => b.Count - a.Count)` (line 365): `Array.prototype.sort` is
specified to be stable, and with this consistent comparator any stable sort
returns the unique stable count-descending rearrangement, here computed by a
stable insertion sort. -/
def sortCountsDesc : List (JStr × Nat) → List (JStr × Nat)
  | [] => []
  | x :: xs => insertDesc x (sortCountsDesc xs)

/-- The aggregated, sorted label counts shown in the stats summary and in the
Label Counts sheet. -/
def sortedLabelCounts (records : List FeedbackRecord) : List (JStr × Nat) :=
  sortCountsDesc (labelCountsOf records)

/-- Total of the counts of an association list. -/
def sumCounts (m : List (JStr × Nat)) : Nat := (m.map (fun p => p.2)).sum

/-- Modelled from the claim wording, for comparison with the code's key
order: keep each element's first occurrence, in first-encountered order. -/
def firstSeen : List JStr → List JStr
  | [] => []
  | x :: xs => x :: firstSeen (xs.filter (fun y => y ≠ x))
termination_by l => l.length
decreasing_by
  simp only [List.length_cons]
  exact Nat.lt_succ_of_le (List.length_filter_le _ _)

/-! ### Aggregator lemmas -/

theorem any_key_iff (m : List (JStr × Nat)) (k : JStr) :
    m.any (fun p => p.1 = k) = true ↔ k ∈ m.map Prod.fst := by
  simp [List.any_eq_true, List.mem_map]

theorem foldl_bumpLabel_eq (labels : List JStr) :
    ∀ m, labels.foldl bumpLabel m =
      ((labels.map normalizeLabel).filter (fun l => l ≠ [])).foldl bump m := by
  induction labels with
  | nil => intro m; rfl
  | cons l ls ih =>
    intro m
    by_cases h : normalizeLabel l = []
    · simp [bumpLabel, h, ih]
    · simp [bumpLabel, h, ih]

theorem labelCountsOf_aux :
    ∀ (records : List FeedbackRecord) (m : List (JStr × Nat)),
      records.foldl (fun m item => item.labels.foldl bumpLabel m) m =
        (normLabelStream records).foldl bump m := by
  intro records
  induction records with
  | nil => intro m; rfl
  | cons r rs ih =>
    intro m
    have hsplit : normLabelStream (r :: rs) =
        ((r.labels.map normalizeLabel).filter (fun l => l ≠ [])) ++ normLabelStream rs := by
      simp [normLabelStream]
    rw [hsplit, List.foldl_append, List.foldl_cons, ← foldl_bumpLabel_eq, ih]

theorem labelCountsOf_eq_foldl (records : List FeedbackRecord) :
    labelCountsOf records = (normLabelStream records).foldl bump [] :=
  labelCountsOf_aux records []

theorem bump_map_fst (m : List (JStr × Nat)) (k : JStr) :
    (bump m k).map Prod.fst =
      if k ∈ m.map Prod.fst then m.map Prod.fst else m.map Prod.fst ++ [k] := by
  unfold bump
  by_cases h : k ∈ m.map Prod.fst
  · rw [if_pos ((any_key_iff m k).mpr h), if_pos h, List.map_map]
    apply List.map_congr_left
    intro p _
    by_cases hp : p.1 = k <;> simp [hp]
  · rw [if_neg (fun hc => h ((any_key_iff m k).mp hc)), if_neg h]
    simp

theorem bump_nodup (m : List (JStr × Nat)) (k : JStr) (h : (m.map Prod.fst).Nodup) :
    ((bump m k).map Prod.fst).Nodup := by
  rw [bump_map_fst]
  split
  · exact h
  · next hk =>
    rw [List.nodup_append]
    refine ⟨h, List.nodup_singleton k, ?_⟩
    intro a ha hb
    rw [List.mem_singleton] at hb
    subst hb
    exact hk ha

theorem sum_map_upd :
    ∀ (m : List (JStr × Nat)) (k : JStr), (m.map Prod.fst).Nodup → k ∈ m.map Prod.fst →
      sumCounts (m.map (fun q => if q.1 = k then (q.1, q.2 + 1) else q)) = sumCounts m + 1 := by
  intro m
  induction m with
  | nil => intro k _ h; simp at h
  | cons p ps ih =>
    intro k hnd hmem
    rw [List.map_cons, List.nodup_cons] at hnd
    obtain ⟨hp, hps⟩ := hnd
    rw [List.map_cons, List.mem_cons] at hmem
    rcases hmem with hk | hk
    · have htail : ps.map (fun q => if q.1 = k then (q.1, q.2 + 1) else q) = ps := by
        have hid : ∀ q ∈ ps, (if q.1 = k then (q.1, q.2 + 1) else q) = id q := by
          intro q hq
          have hqk : q.1 ≠ k := by
            intro he
            exact hp (List.mem_map.mpr ⟨q, hq, he.trans hk⟩)
          simp [hqk]
        rw [List.map_congr_left hid, List.map_id]
      rw [List.map_cons, htail, if_pos hk.symm]
      simp only [sumCounts, List.map_cons, List.sum_cons]
      omega
    · have hpk : p.1 ≠ k := fun he => hp (he ▸ hk)
      rw [List.map_cons, if_neg hpk]
      simp only [sumCounts, List.map_cons, List.sum_cons]
      have := ih k hps hk
      simp only [sumCounts] at this
      omega

theorem bump_sumCounts (m : List (JStr × Nat)) (k : JStr) (h : (m.map Prod.fst).Nodup) :
    sumCounts (bump m k) = sumCounts m + 1 := by
  unfold bump
  by_cases hmem : k ∈ m.map Prod.fst
  · rw [if_pos ((any_key_iff m k).mpr hmem)]
    exact sum_map_upd m k h hmem
  · rw [if_neg (fun hc => hmem ((any_key_iff m k).mp hc))]
    simp [sumCounts]

theorem foldl_bump_invariant :
    ∀ (ls : List JStr) (m : List (JStr × Nat)), (m.map Prod.fst).Nodup →
      ((ls.foldl bump m).map Prod.fst).Nodup ∧
      sumCounts (ls.foldl bump m) = sumCounts m + ls.length := by
  intro ls
  induction ls with
  | nil => intro m h; exact ⟨h, by simp⟩
  | cons k ks ih =>
    intro m h
    simp only [List.foldl_cons, List.length_cons]
    obtain ⟨h1, h2⟩ := ih (bump m k) (bump_nodup m k h)
    refine ⟨h1, ?_⟩
    rw [h2, bump_sumCounts m k h]
    omega

theorem sumCounts_labelCountsOf (records : List FeedbackRecord) :
    sumCounts (labelCountsOf records) = (normLabelStream records).length := by
  rw [labelCountsOf_eq_foldl]
  have h := (foldl_bump_invariant (normLabelStream records) [] (by simp)).2
  simpa [sumCounts] using h

theorem nodup_labelCountsOf (records : List FeedbackRecord) :
    ((labelCountsOf records).map Prod.fst).Nodup := by
  rw [labelCountsOf_eq_foldl]
  exact (foldl_bump_invariant (normLabelStream records) [] (by simp)).1

theorem insertDesc_perm (x : JStr × Nat) (l : List (JStr × Nat)) :
    List.Perm (insertDesc x l) (x :: l) := by
  induction l with
  | nil => exact List.Perm.refl _
  | cons y ys ih =>
    unfold insertDesc
    split
    · exact List.Perm.refl _
    · exact (List.Perm.cons y ih).trans (List.Perm.swap x y ys)

theorem sortCountsDesc_perm (l : List (JStr × Nat)) : List.Perm (sortCountsDesc l) l := by
  induction l with
  | nil => exact List.Perm.refl _
  | cons x xs ih =>
    simp only [sortCountsDesc]
    exact (insertDesc_perm x (sortCountsDesc xs)).trans (List.Perm.cons x ih)

theorem sumCounts_sortCountsDesc (l : List (JStr × Nat)) :
    sumCounts (sortCountsDesc l) = sumCounts l :=
  List.Perm.sum_eq ((sortCountsDesc_perm l).map (fun p => p.2))

theorem mem_insertDesc {x z : JStr × Nat} {l : List (JStr × Nat)}
    (h : z ∈ insertDesc x l) : z = x ∨ z ∈ l := by
  induction l with
  | nil =>
    simp only [insertDesc, List.mem_singleton] at h
    exact Or.inl h
  | cons y ys ih =>
    unfold insertDesc at h
    split at h
    · rcases List.mem_cons.mp h with rfl | h2
      · exact Or.inl rfl
      · exact Or.inr h2
    · rcases List.mem_cons.mp h with rfl | h2
      · exact Or.inr (List.mem_cons_self _ _)
      · rcases ih h2 with h3 | h3
        · exact Or.inl h3
        · exact Or.inr (List.mem_cons_of_mem _ h3)

theorem pairwise_insertDesc (x : JStr × Nat) (l : List (JStr × Nat))
    (h : l.Pairwise (fun a b => b.2 ≤ a.2)) :
    (insertDesc x l).Pairwise (fun a b => b.2 ≤ a.2) := by
  induction l with
  | nil => simp [insertDesc]
  | cons y ys ih =>
    rw [List.pairwise_cons] at h
    obtain ⟨hy, hys⟩ := h
    unfold insertDesc
    split
    · next hle =>
      rw [List.pairwise_cons]
      refine ⟨?_, List.pairwise_cons.mpr ⟨hy, hys⟩⟩
      intro z hz
      rcases List.mem_cons.mp hz with rfl | hz2
      · exact hle
      · exact le_trans (hy z hz2) hle
    · next hgt =>
      rw [List.pairwise_cons]
      refine ⟨?_, ih hys⟩
      intro z hz
      rcases mem_insertDesc hz with rfl | hz2
      · omega
      · exact hy z hz2

theorem pairwise_sortCountsDesc (l : List (JStr × Nat)) :
    (sortCountsDesc l).Pairwise (fun a b => b.2 ≤ a.2) := by
  induction l with
  | nil => simp [sortCountsDesc]
  | cons x xs ih =>
    simp only [sortCountsDesc]
    exact pairwise_insertDesc x _ ih

theorem filter_insertDesc (x : JStr × Nat) (k : Nat) :
    ∀ l, (insertDesc x l).filter (fun e => e.2 = k) =
      if x.2 = k then x :: l.filter (fun e => e.2 = k)
      else l.filter (fun e => e.2 = k) := by
  intro l
  induction l with
  | nil => by_cases hk : x.2 = k <;> simp [insertDesc, List.filter_cons, hk]
  | cons y ys ih =>
    unfold insertDesc
    split
    · next hle => by_cases hk : x.2 = k <;> simp [List.filter_cons, hk]
    · next hgt =>
      by_cases hk : x.2 = k
      · have hyk : ¬ (y.2 = k) := by omega
        simp [List.filter_cons, hyk, ih, hk]
      · simp [List.filter_cons, ih, hk]

theorem filter_sortCountsDesc (k : Nat) :
    ∀ l : List (JStr × Nat),
      (sortCountsDesc l).filter (fun e => e.2 = k) = l.filter (fun e => e.2 = k) := by
  intro l
  induction l with
  | nil => rfl
  | cons x xs ih =>
    simp only [sortCountsDesc]
    rw [filter_insertDesc]
    by_cases hk : x.2 = k <;> simp [hk, ih, List.filter_cons]

theorem foldl_bump_map_fst :
    ∀ (ls : List JStr) (m : List (JStr × Nat)),
      (ls.foldl bump m).map Prod.fst =
        ls.foldl (fun ks x => if x ∈ ks then ks else ks ++ [x]) (m.map Prod.fst) := by
  intro ls
  induction ls with
  | nil => intro m; rfl
  | cons k ks ih =>
    intro m
    simp only [List.foldl_cons]
    rw [ih (bump m k), bump_map_fst]

theorem foldl_keyStep_eq_firstSeen :
    ∀ (ls : List JStr) (ks : List JStr),
      ls.foldl (fun ks x => if x ∈ ks then ks else ks ++ [x]) ks =
        ks ++ firstSeen (ls.filter (fun x => x ∉ ks)) := by
  intro ls
  induction ls with
  | nil => intro ks; simp [firstSeen]
  | cons x xs ih =>
    intro ks
    simp only [List.foldl_cons]
    by_cases hx : x ∈ ks
    · rw [if_pos hx, ih ks]
      congr 2
      rw [List.filter_cons, if_neg (by simp [hx])]
    · rw [if_neg hx, ih (ks ++ [x])]
      rw [List.filter_cons, if_pos (by simp [hx])]
      have hff : xs.filter (fun y => y ∉ ks ++ [x]) =
          (xs.filter (fun y => y ∉ ks)).filter (fun y => y ≠ x) := by
        rw [List.filter_filter]
        apply List.filter_congr
        intro y _
        simp only [List.mem_append, List.mem_singleton, not_or, decide_not,
          Bool.and_eq_true, decide_eq_true_eq, Bool.not_eq_true']
        rw [Bool.eq_iff_iff]
        simp [and_comm]
      rw [firstSeen, ← hff, List.append_assoc, List.singleton_append]

theorem map_fst_labelCountsOf (records : List FeedbackRecord) :
    (labelCountsOf records).map Prod.fst = firstSeen (normLabelStream records) := by
  rw [labelCountsOf_eq_foldl, foldl_bump_map_fst, List.map_nil,
    foldl_keyStep_eq_firstSeen, List.nil_append]
  congr 1
  apply List.filter_eq_self.mpr
  intro a _
  simp

/-! ## Claim C5 -/

/-- C5: the counts produced by the aggregator add up to exactly (hence also
at most) the number of labels whose normalized form is non-empty; labels
normalizing to the empty string are excluded and count toward no total. -/
theorem claim_C5_count_conservation (records : List FeedbackRecord) :
    sumCounts (sortedLabelCounts records) = (normLabelStream records).length ∧
    sumCounts (sortedLabelCounts records) ≤ (normLabelStream records).length := by
  have h : sumCounts (sortedLabelCounts records) = (normLabelStream records).length := by
    unfold sortedLabelCounts
    rw [sumCounts_sortCountsDesc, sumCounts_labelCountsOf]
  exact ⟨h, le_of_eq h⟩

/-! ## Claim C6 -/

/-- C6: the aggregated label counts are sorted non-increasing by count —
every entry's count is ≥ every later entry's count. -/
theorem claim_C6_sorted_desc (records : List FeedbackRecord) :
    (sortedLabelCounts records).Pairwise (fun a b => b.2 ≤ a.2) :=
  pairwise_sortCountsDesc _

/-! ## Claim C10 -/

/-- C10: tie order is deterministic first-seen order.  For every count value
`k`, the entries with count `k` appear in the sorted output exactly in count
map order (the descending sort is stable), and the count map's keys are
exactly the distinct normalized labels in the order they were first
encountered while scanning records in order and each record's labels in
order. -/
theorem claim_C10_tie_order (records : List FeedbackRecord) (k : Nat) :
    (sortedLabelCounts records).filter (fun e => e.2 = k) =
      (labelCountsOf records).filter (fun e => e.2 = k) ∧
    (labelCountsOf records).map Prod.fst = firstSeen (normLabelStream records) :=
  ⟨filter_sortCountsDesc k _, map_fst_labelCountsOf records⟩

/-! ## Export Builder (src/index.tsx lines 304-372) -/

/-- `item.isIncorrect ? 'Yes' : 'No'`. -/
def yesNo (b : Bool) : JStr := if b then ['Y', 'e', 's'] else ['N', 'o']

/-- A row of the Compiled view / basic export sheet (lines 305-309 and
344-348): columns `Feedback`, `Labels`, `Incorrect Analysis`. -/
structure CompiledRow where
  feedback : JStr
  labels : JStr
  incorrectAnalysis : JStr
deriving DecidableEq, Repr

/-- A row of the Exploded-by-Label sheet (lines 321-338): columns `Feedback`,
`Single Label`, `Incorrect Analysis`. -/
structure ExplodedRow where
  feedback : JStr
  singleLabel : JStr
  incorrectAnalysis : JStr
deriving DecidableEq, Repr

/-- One compiled row: `labels.join(', ')` and the Yes/No flag. -/
def compiledRowOf (item : FeedbackRecord) : CompiledRow :=
  ⟨item.feedback, List.intercalate [',', ' '] item.labels, yesNo item.isIncorrect⟩

/-- Lines 305-309 / 344-348: one compiled row per record. -/
def compiledData (records : List FeedbackRecord) : List CompiledRow :=
  records.map compiledRowOf

/-- Lines 322-338: a record with no labels still pushes exactly one row with
an empty `Single Label`; otherwise one row per label, in label order. -/
def explodedRowsOf (item : FeedbackRecord) : List ExplodedRow :=
  if item.labels.length = 0 then
    [⟨item.feedback, [], yesNo item.isIncorrect⟩]
  else
    item.labels.map (fun label => ⟨item.feedback, label, yesNo item.isIncorrect⟩)

/-- The Exploded-by-Label sheet built by the forEach/push loop. -/
def explodedData (records : List FeedbackRecord) : List ExplodedRow :=
  (records.map explodedRowsOf).flatten

/-- The session state owning `analysisResults` (line 30). -/
structure SessionState where
  analysisResults : List FeedbackRecord
deriving DecidableEq, Repr

/-- The basic export workbook: a single `Feedback Analysis` sheet. -/
structure BasicWorkbook where
  feedbackAnalysis : List CompiledRow
deriving DecidableEq, Repr

/-- The detailed export workbook, sheets in append order
`[Exploded by Label, Compiled View, Label Counts]` (lines 340, 350, 368). -/
structure DetailedWorkbook where
  explodedByLabel : List ExplodedRow
  compiledView : List CompiledRow
  labelCounts : List (JStr × Nat)
deriving DecidableEq, Repr

/-- `generateAndDownloadExcel` (lines 304-315): builds the Compiled sheet
from the records.  The body only reads `labeledFeedback` (mapping each item
to a fresh row object), so in the state-passing model the session state is
returned as received. -/
def generateAndDownloadExcel (st : SessionState) : BasicWorkbook × SessionState :=
  (⟨compiledData st.analysisResults⟩, st)

/-- `generateAndDownloadExplodedExcel` (lines 317-372): builds the three
sheets from the records; again the body only reads `labeledFeedback`. -/
def generateAndDownloadExplodedExcel (st : SessionState) :
    DetailedWorkbook × SessionState :=
  (⟨explodedData st.analysisResults, compiledData st.analysisResults,
    sortedLabelCounts st.analysisResults⟩, st)

/-! ### Export lemmas -/

theorem length_explodedRowsOf (r : FeedbackRecord) :
    (explodedRowsOf r).length = max 1 r.labels.length := by
  unfold explodedRowsOf
  split
  · next h => simp [h]
  · next h =>
    simp only [List.length_map]
    omega

/-! ## Claim C4 -/

/-- C4: the exploded view has exactly `∑ max 1 (number of labels)` rows —
one row per (record, label) pair, and a record with zero labels contributes
exactly one row whose `Single Label` is the empty string — so no record is
dropped from the view. -/
theorem claim_C4_exploded_rows (records : List FeedbackRecord) (f g : JStr)
    (ls : List JStr) (b : Bool) :
    (explodedData records).length = (records.map (fun r => max 1 r.labels.length)).sum ∧
    explodedRowsOf ⟨f, [], b⟩ = [⟨f, [], yesNo b⟩] ∧
    explodedRowsOf ⟨f, g :: ls, b⟩ =
      (g :: ls).map (fun label => ⟨f, label, yesNo b⟩) := by
  refine ⟨?_, rfl, rfl⟩
  unfold explodedData
  rw [List.length_flatten, List.map_map]
  congr 1
  apply List.map_congr_left
  intro r _
  exact length_explodedRowsOf r

/-! ## Claim C9 -/

/-- C9: neither the basic export nor the detailed export mutates the
records: after either builder runs, the session state is unchanged — in
particular every record's text, labels sequence and `isIncorrect` flag are
exactly what they were before. -/
theorem claim_C9_exports_no_mutation (st : SessionState) :
    (generateAndDownloadExcel st).2 = st ∧
    (generateAndDownloadExplodedExcel st).2 = st ∧
    ((generateAndDownloadExcel st).2.analysisResults.map FeedbackRecord.feedback =
        st.analysisResults.map FeedbackRecord.feedback ∧
      (generateAndDownloadExcel st).2.analysisResults.map FeedbackRecord.labels =
        st.analysisResults.map FeedbackRecord.labels ∧
      (generateAndDownloadExcel st).2.analysisResults.map FeedbackRecord.isIncorrect =
        st.analysisResults.map FeedbackRecord.isIncorrect) ∧
    ((generateAndDownloadExplodedExcel st).2.analysisResults.map FeedbackRecord.feedback =
        st.analysisResults.map FeedbackRecord.feedback ∧
      (generateAndDownloadExplodedExcel st).2.analysisResults.map FeedbackRecord.labels =
        st.analysisResults.map FeedbackRecord.labels ∧
      (generateAndDownloadExplodedExcel st).2.analysisResults.map FeedbackRecord.isIncorrect =
        st.analysisResults.map FeedbackRecord.isIncorrect) :=
  ⟨rfl, rfl, ⟨rfl, rfl, rfl⟩, ⟨rfl, rfl, rfl⟩⟩

end FeedbackOrganiser
